import Mathlib

/-!
Verification of the oxitodo application core (src/app.rs, src/todo.rs).

The Rust core is shallowly embedded: `App` mirrors the `App` struct
(`list_state` is reduced to its observable `selected : Option Nat`;
the `data_file` path and the fire-and-forget `save_todos` side effect
carry no in-memory state and are omitted), and each method of `impl App`
and `impl TodoItem` becomes a pure Lean function on `App`.
Strings are modelled as `List Char`.  The file system, used only by
`load_todos`, is modelled as an `Option String` (the content of the file
at the path, if it exists), and serde_json deserialization as an
arbitrary `parse` function returning `Except`.
-/

/-- Mirrors `struct TodoItem { id: usize, text: String, completed: bool }`
from src/todo.rs. -/
structure TodoItem where
  id : Nat
  text : List Char
  completed : Bool
deriving DecidableEq, Repr

/-- `TodoItem::new(id, text)` from src/todo.rs: completed starts false. -/
def TodoItem.new (id : Nat) (text : List Char) : TodoItem :=
  { id := id, text := text, completed := false }

/-- `TodoItem::toggle_completion` from src/todo.rs: `self.completed = !self.completed`,
as a pure function. -/
def TodoItem.toggle_completion (t : TodoItem) : TodoItem :=
  { t with completed := !t.completed }

/-- `TodoItem::is_completed` from src/todo.rs. -/
def TodoItem.is_completed (t : TodoItem) : Bool :=
  t.completed

/-- `enum AppMode { Normal, Insert, Help }` from src/app.rs. -/
inductive AppMode where
  | Normal
  | Insert
  | Help
deriving DecidableEq, Repr

/-- Abstract key codes, the subset of `crossterm::event::KeyCode` the
program inspects (src/app.rs `handle_key_event`); every other code
behaves as `Other`. -/
inductive KeyCode where
  | Char (c : Char)
  | Esc
  | Enter
  | Backspace
  | Left
  | Right
  | Up
  | Down
  | Other
deriving DecidableEq, Repr

/-- `crossterm::event::KeyEventKind`. -/
inductive KeyEventKind where
  | Press
  | Repeat
  | Release
deriving DecidableEq, Repr

/-- An abstract key event: code plus kind (modifiers are never read by
`handle_key_event`). -/
structure KeyEvent where
  code : KeyCode
  kind : KeyEventKind
deriving DecidableEq, Repr

/-- Modelled from the spec: the `tui_input::Input` single-line buffer is an
external crate, not in src/; spec section 4.3 gives it as
`{ text: string, cursor: index into text }` with standard single-line
text-edit semantics. -/
structure Input where
  text : List Char
  cursor : Nat
deriving DecidableEq, Repr

/-- `Input::default()`: empty text, cursor 0. -/
def Input.default : Input :=
  { text := [], cursor := 0 }

/-- `Input::reset()` (spec 4.3): clears text and cursor to 0. -/
def Input.reset (_ : Input) : Input :=
  Input.default

/-- `Input::value()` (spec 4.3): read-only access to the text. -/
def Input.value (i : Input) : List Char :=
  i.text

/-- Modelled from the spec: `tui_input`'s `handle_event` (spec 4.3 /
4.4 "other printable/editing key forwarded to InputBuffer"):
`insert_char(c)` at cursor, `delete_char_before_cursor()`,
`move_cursor(delta)` clamped to `[0, len]`; other keys are no-ops. -/
def Input.handle_event (i : Input) (key : KeyEvent) : Input :=
  match key.code with
  | .Char c =>
      { text := i.text.take i.cursor ++ [c] ++ i.text.drop i.cursor,
        cursor := i.cursor + 1 }
  | .Backspace =>
      if i.cursor = 0 then i
      else { text := i.text.eraseIdx (i.cursor - 1), cursor := i.cursor - 1 }
  | .Left =>
      { i with cursor := i.cursor - 1 }
  | .Right =>
      { i with cursor := min (i.cursor + 1) i.text.length }
  | _ => i

/-- Rust `str::trim`: removes leading and trailing whitespace.
(Rust trims the Unicode White_Space class; the whitespace predicate is
`Char.isWhitespace` here, which is immaterial to the properties proved.) -/
def rust_trim (s : List Char) : List Char :=
  (((s.dropWhile Char.isWhitespace).reverse.dropWhile Char.isWhitespace)).reverse

/-- `todos.iter().map(|t| t.id).max().unwrap_or(0)` from `App::new`
(src/app.rs line 33), before the `+ 1`. -/
def maxId (ts : List TodoItem) : Nat :=
  (ts.map TodoItem.id).foldr max 0

/-- The parse failure for malformed persisted content (serde_json error,
spec section 7 `ParseError`). -/
structure ParseError where
  msg : String
deriving DecidableEq, Repr

/-- `struct App` from src/app.rs. `list_state : ListState` is represented by
its selected index; `data_file : String` is dropped (only used by the
omitted save side effect). -/
structure App where
  todos : List TodoItem
  selected : Option Nat
  mode : AppMode
  input : Input
  next_id : Nat
  should_quit : Bool
deriving DecidableEq, Repr

/-- `App::load_todos(file_path)` from src/app.rs: if the file exists, read
it and deserialize; else `Ok(vec![])`.  The file system is abstracted as
the optional content `file` of the file at the path, and serde_json's
`from_str` as the `parse` argument. -/
def load_todos (parse : String → Except ParseError (List TodoItem))
    (file : Option String) : Except ParseError (List TodoItem) :=
  match file with
  | some content => parse content
  | none => Except.ok []

/-- `App::new()` from src/app.rs, after a successful load yielding `todos`:
`next_id = max id + 1` (`unwrap_or(0) + 1`), default list state, Normal
mode, default input, then select index 0 iff the list is non-empty. -/
def App.new (todos : List TodoItem) : App :=
  { todos := todos
    selected := if todos.isEmpty then none else some 0
    mode := AppMode.Normal
    input := Input.default
    next_id := maxId todos + 1
    should_quit := false }

/-- `App::add_todo(text)` from src/app.rs: if the trimmed text is non-empty,
push `TodoItem::new(next_id, text.trim())`, increment `next_id`, and
select the new last index `todos.len() - 1`. -/
def App.add_todo (a : App) (text : List Char) : App :=
  if (rust_trim text).isEmpty then a
  else
    let todo := TodoItem.new a.next_id (rust_trim text)
    let todos := a.todos ++ [todo]
    { a with todos := todos
             next_id := a.next_id + 1
             selected := some (todos.length - 1) }

/-- `App::toggle_current_todo()` from src/app.rs: on `Some(selected)` with a
successful `get_mut(selected)`, flip that item's completed flag. -/
def App.toggle_current_todo (a : App) : App :=
  match a.selected with
  | some selected =>
    match a.todos[selected]? with
    | some todo => { a with todos := a.todos.set selected todo.toggle_completion }
    | none => a
  | none => a

/-- `App::delete_current_todo()` from src/app.rs: on `Some(selected)` with
`selected < todos.len()`, remove index `selected`, then re-establish the
selection: `None` if now empty, clamp to the new last index if
`selected >= todos.len()`, else leave the selection untouched. -/
def App.delete_current_todo (a : App) : App :=
  match a.selected with
  | some selected =>
    if selected < a.todos.length then
      let todos := a.todos.eraseIdx selected
      let sel : Option Nat :=
        if todos.isEmpty then none
        else if todos.length ≤ selected then some (todos.length - 1)
        else a.selected
      { a with todos := todos, selected := sel }
    else a
  | none => a

/-- `App::next_item()` from src/app.rs: no-op on an empty list; else wrap
forward (`i >= len - 1` goes to 0, otherwise `i + 1`; `None` goes to 0). -/
def App.next_item (a : App) : App :=
  if a.todos.isEmpty then a
  else
    let selected :=
      match a.selected with
      | some i => if a.todos.length - 1 ≤ i then 0 else i + 1
      | none => 0
    { a with selected := some selected }

/-- `App::previous_item()` from src/app.rs: no-op on an empty list; else wrap
backward (`i == 0` goes to `len - 1`, otherwise `i - 1`; `None` goes to 0). -/
def App.previous_item (a : App) : App :=
  if a.todos.isEmpty then a
  else
    let selected :=
      match a.selected with
      | some i => if i = 0 then a.todos.length - 1 else i - 1
      | none => 0
    { a with selected := some selected }

/-- `App::handle_key_event(key)` from src/app.rs: ignore non-press events;
dispatch on the current mode and key code exactly as the nested `match`
in the source. -/
def App.handle_key_event (a : App) (key : KeyEvent) : App :=
  if key.kind ≠ KeyEventKind.Press then a
  else
    match a.mode with
    | AppMode.Normal =>
      match key.code with
      | .Char 'q' => { a with should_quit := true }
      | .Char 'i' => { a with mode := AppMode.Insert }
      | .Char '?' => { a with mode := AppMode.Help }
      | .Char ' ' => a.toggle_current_todo
      | .Char 'd' => a.delete_current_todo
      | .Up => a.previous_item
      | .Char 'k' => a.previous_item
      | .Down => a.next_item
      | .Char 'j' => a.next_item
      | _ => a
    | AppMode.Insert =>
      match key.code with
      | .Esc => { a with mode := AppMode.Normal, input := a.input.reset }
      | .Enter =>
        let input_text := a.input.value
        let a' := a.add_todo input_text
        { a' with input := a'.input.reset, mode := AppMode.Normal }
      | _ => { a with input := a.input.handle_event key }
    | AppMode.Help =>
      match key.code with
      | .Esc => { a with mode := AppMode.Normal }
      | .Char '?' => { a with mode := AppMode.Normal }
      | _ => a

/-- `App::completed_count()` from src/app.rs. -/
def App.completed_count (a : App) : Nat :=
  (a.todos.filter (fun t => t.is_completed)).length

/-- `App::total_count()` from src/app.rs. -/
def App.total_count (a : App) : Nat :=
  a.todos.length

/-- The operations reachable-state claims quantify over: the list-model
mutations plus whole key-event dispatch. -/
inductive Op where
  | add (text : List Char)
  | toggle
  | delete
  | next
  | prev
  | key (k : KeyEvent)
deriving DecidableEq, Repr

/-- Apply one operation to the state. -/
def App.applyOp (a : App) : Op → App
  | Op.add t => a.add_todo t
  | Op.toggle => a.toggle_current_todo
  | Op.delete => a.delete_current_todo
  | Op.next => a.next_item
  | Op.prev => a.previous_item
  | Op.key k => a.handle_key_event k

/-- Apply a sequence of operations, left to right. -/
def App.applyOps (a : App) (ops : List Op) : App :=
  ops.foldl App.applyOp a

/-- The selection invariant (spec section 3): a non-empty list has
`selected = Some(i)` with `i < items.len()`, an empty list has
`selected = None`. -/
def selection_inv (a : App) : Bool :=
  match a.selected with
  | none => a.todos.isEmpty
  | some i => decide (i < a.todos.length)

/-- The id-counter invariant (spec section 3): `next_id` strictly exceeds
every id currently in the list. -/
def id_inv (a : App) : Bool :=
  a.todos.all (fun t => t.id < a.next_id)

/-- The ids assigned by an operation `op` taking state `a` to
`a.applyOp op`: `add_todo` hands out exactly the old `next_id` each time
it increments the counter, so the assigned ids are the interval from the
old counter to the new one. -/
def assigned_ids (a : App) : List Op → List Nat
  | [] => []
  | op :: ops =>
    let a' := a.applyOp op
    List.range' a.next_id (a'.next_id - a.next_id) ++ assigned_ids a' ops

/-- A reachable state exercised below: start from a loaded list with ids 1
and 2, move the selection to index 1, delete it.  Its `next_id` stays 3
while the maximum id present drops to 1. -/
def after_delete_state : App :=
  (App.new [TodoItem.new 1 ['a'], TodoItem.new 2 ['b']]).applyOps [Op.next, Op.delete]

/-- The key presses of the spec scenario: enter Insert mode, type
"buy milk", press enter. -/
def buy_milk_keys : List KeyEvent :=
  [⟨KeyCode.Char 'i', KeyEventKind.Press⟩,
   ⟨KeyCode.Char 'b', KeyEventKind.Press⟩,
   ⟨KeyCode.Char 'u', KeyEventKind.Press⟩,
   ⟨KeyCode.Char 'y', KeyEventKind.Press⟩,
   ⟨KeyCode.Char ' ', KeyEventKind.Press⟩,
   ⟨KeyCode.Char 'm', KeyEventKind.Press⟩,
   ⟨KeyCode.Char 'i', KeyEventKind.Press⟩,
   ⟨KeyCode.Char 'l', KeyEventKind.Press⟩,
   ⟨KeyCode.Char 'k', KeyEventKind.Press⟩,
   ⟨KeyCode.Enter, KeyEventKind.Press⟩]

/-- The state after running the scenario keys from a startup with an empty
list. -/
def buy_milk_final : App :=
  buy_milk_keys.foldl App.handle_key_event (App.new [])

/-- The spec's deletion example: list `[A,B,C]` with index 2 selected. -/
def abc_state : App :=
  { todos := [TodoItem.new 1 ['A'], TodoItem.new 2 ['B'], TodoItem.new 3 ['C']]
    selected := some 2
    mode := AppMode.Normal
    input := Input.default
    next_id := 4
    should_quit := false }

/-- A state with an out-of-range selection (excluded by the invariant but
accepted by the functions). -/
def oor_state : App :=
  { todos := []
    selected := some 5
    mode := AppMode.Normal
    input := Input.default
    next_id := 1
    should_quit := false }

/-- An Insert-mode state with "hi" in the input buffer. -/
def hi_insert_state : App :=
  { todos := []
    selected := none
    mode := AppMode.Insert
    input := { text := ['h', 'i'], cursor := 2 }
    next_id := 1
    should_quit := false }

/-! ### Generic list helpers -/

/-- Setting an index to the value already there leaves the list unchanged. -/
theorem set_self_of_getElem? {α : Type} :
    ∀ (l : List α) (i : Nat) (x : α), l[i]? = some x → l.set i x = l
  | [], i, x, h => by simp at h
  | a :: l, 0, x, h => by
      simp at h
      simp [List.set, h]
  | a :: l, i + 1, x, h => by
      simp at h
      simp [List.set]
      exact set_self_of_getElem? l i x h

/-- The head of `dropWhile p` never satisfies `p`. -/
theorem head?_dropWhile_false {α : Type} (p : α → Bool) :
    ∀ (l : List α) (c : α), (l.dropWhile p).head? = some c → p c = false
  | [], c, h => by simp [List.dropWhile] at h
  | a :: l, c, h => by
      rw [List.dropWhile] at h
      by_cases hpa : p a = true
      · rw [hpa] at h
        exact head?_dropWhile_false p l c h
      · simp [Bool.not_eq_true] at hpa
        rw [hpa] at h
        simp at h
        rw [← h]
        exact hpa

/-- The last element of a non-empty suffix is the last element of the list. -/
theorem getLast?_of_suffix {α : Type} {l m : List α} (h : m <:+ l) (hm : m ≠ []) :
    m.getLast? = l.getLast? := by
  obtain ⟨t, ht⟩ := h
  rw [← ht, List.getLast?_append_of_ne_nil t hm]

/-! ### Facts about `rust_trim` -/

/-- The trailing character of a trimmed string is not whitespace. -/
theorem rust_trim_getLast?_not_ws (s : List Char) (c : Char) :
    (rust_trim s).getLast? = some c → c.isWhitespace = false := by
  intro h
  unfold rust_trim at h
  rw [List.getLast?_reverse] at h
  exact head?_dropWhile_false _ _ c h

/-- The leading character of a trimmed string is not whitespace. -/
theorem rust_trim_head?_not_ws (s : List Char) (c : Char) :
    (rust_trim s).head? = some c → c.isWhitespace = false := by
  intro h
  unfold rust_trim at h
  rw [List.head?_reverse] at h
  have hne : (s.dropWhile Char.isWhitespace).reverse.dropWhile Char.isWhitespace ≠ [] := by
    intro hnil
    rw [hnil] at h
    simp at h
  rw [getLast?_of_suffix (List.dropWhile_suffix _) hne, List.getLast?_reverse] at h
  exact head?_dropWhile_false _ _ c h

/-! ### Shape of key dispatch

Every key event either leaves `todos`, `selected`, `next_id` untouched
(changing only the mode, the quit flag or the input buffer), or performs
exactly one of the four list-model operations, or performs the
Insert-mode Enter submission (an `add_todo` of the buffer contents). -/

theorem handle_key_event_cases (a : App) (k : KeyEvent) :
    (∃ m fl inp, a.handle_key_event k = { a with mode := m, should_quit := fl, input := inp }) ∨
    a.handle_key_event k = a.toggle_current_todo ∨
    a.handle_key_event k = a.delete_current_todo ∨
    a.handle_key_event k = a.next_item ∨
    a.handle_key_event k = a.previous_item ∨
    (∃ m inp, a.handle_key_event k = { a.add_todo a.input.value with mode := m, input := inp }) := by
  obtain ⟨todos, sel, mode, inp, nid, fl⟩ := a
  obtain ⟨code, kind⟩ := k
  cases kind
  case Repeat => exact Or.inl ⟨mode, fl, inp, rfl⟩
  case Release => exact Or.inl ⟨mode, fl, inp, rfl⟩
  case Press =>
    cases mode
    case Normal =>
      cases code
      case Up => exact Or.inr (Or.inr (Or.inr (Or.inr (Or.inl rfl))))
      case Down => exact Or.inr (Or.inr (Or.inr (Or.inl rfl)))
      case Esc => exact Or.inl ⟨AppMode.Normal, fl, inp, rfl⟩
      case Enter => exact Or.inl ⟨AppMode.Normal, fl, inp, rfl⟩
      case Backspace => exact Or.inl ⟨AppMode.Normal, fl, inp, rfl⟩
      case Left => exact Or.inl ⟨AppMode.Normal, fl, inp, rfl⟩
      case Right => exact Or.inl ⟨AppMode.Normal, fl, inp, rfl⟩
      case Other => exact Or.inl ⟨AppMode.Normal, fl, inp, rfl⟩
      case Char c =>
        by_cases h1 : c = 'q'
        · subst h1; exact Or.inl ⟨AppMode.Normal, true, inp, rfl⟩
        by_cases h2 : c = 'i'
        · subst h2; exact Or.inl ⟨AppMode.Insert, fl, inp, rfl⟩
        by_cases h3 : c = '?'
        · subst h3; exact Or.inl ⟨AppMode.Help, fl, inp, rfl⟩
        by_cases h4 : c = ' '
        · subst h4; exact Or.inr (Or.inl rfl)
        by_cases h5 : c = 'd'
        · subst h5; exact Or.inr (Or.inr (Or.inl rfl))
        by_cases h6 : c = 'k'
        · subst h6; exact Or.inr (Or.inr (Or.inr (Or.inr (Or.inl rfl))))
        by_cases h7 : c = 'j'
        · subst h7; exact Or.inr (Or.inr (Or.inr (Or.inl rfl)))
        · refine Or.inl ⟨AppMode.Normal, fl, inp, ?_⟩
          simp only [App.handle_key_event, ne_eq, reduceCtorEq, not_false_eq_true, reduceIte]
          split
          all_goals try rfl
          all_goals rename_i heq
          all_goals simp_all
    case Insert =>
      cases code
      case Esc => exact Or.inl ⟨AppMode.Normal, fl, Input.default, rfl⟩
      case Enter =>
        exact Or.inr (Or.inr (Or.inr (Or.inr (Or.inr
          ⟨AppMode.Normal, Input.default, rfl⟩))))
      case Char c =>
        exact Or.inl ⟨AppMode.Insert, fl, _, rfl⟩
      case Backspace => exact Or.inl ⟨AppMode.Insert, fl, _, rfl⟩
      case Left => exact Or.inl ⟨AppMode.Insert, fl, _, rfl⟩
      case Right => exact Or.inl ⟨AppMode.Insert, fl, _, rfl⟩
      case Up => exact Or.inl ⟨AppMode.Insert, fl, _, rfl⟩
      case Down => exact Or.inl ⟨AppMode.Insert, fl, _, rfl⟩
      case Other => exact Or.inl ⟨AppMode.Insert, fl, _, rfl⟩
    case Help =>
      cases code
      case Esc => exact Or.inl ⟨AppMode.Normal, fl, inp, rfl⟩
      case Enter => exact Or.inl ⟨AppMode.Help, fl, inp, rfl⟩
      case Backspace => exact Or.inl ⟨AppMode.Help, fl, inp, rfl⟩
      case Left => exact Or.inl ⟨AppMode.Help, fl, inp, rfl⟩
      case Right => exact Or.inl ⟨AppMode.Help, fl, inp, rfl⟩
      case Up => exact Or.inl ⟨AppMode.Help, fl, inp, rfl⟩
      case Down => exact Or.inl ⟨AppMode.Help, fl, inp, rfl⟩
      case Other => exact Or.inl ⟨AppMode.Help, fl, inp, rfl⟩
      case Char c =>
        by_cases h3 : c = '?'
        · subst h3; exact Or.inl ⟨AppMode.Normal, fl, inp, rfl⟩
        · refine Or.inl ⟨AppMode.Help, fl, inp, ?_⟩
          simp only [App.handle_key_event, ne_eq, reduceCtorEq, not_false_eq_true, reduceIte]
          split
          all_goals try rfl
          all_goals rename_i heq
          all_goals simp_all

/-! ### Preservation of the selection invariant -/

theorem selection_inv_new (loaded : List TodoItem) : selection_inv (App.new loaded) = true := by
  cases loaded with
  | nil => rfl
  | cons t ts => simp [App.new, selection_inv]

theorem selection_inv_add_todo (a : App) (t : List Char) (h : selection_inv a = true) :
    selection_inv (a.add_todo t) = true := by
  unfold App.add_todo
  split
  · exact h
  · simp [selection_inv, List.length_append]

theorem selection_inv_toggle (a : App) (h : selection_inv a = true) :
    selection_inv a.toggle_current_todo = true := by
  unfold App.toggle_current_todo
  cases hsel : a.selected with
  | none => exact h
  | some i =>
    dsimp only
    cases hget : a.todos[i]? with
    | none => exact h
    | some todo =>
      dsimp only
      simp only [selection_inv, hsel, List.length_set] at h ⊢
      exact h

theorem selection_inv_delete (a : App) (h : selection_inv a = true) :
    selection_inv a.delete_current_todo = true := by
  unfold App.delete_current_todo
  cases hsel : a.selected with
  | none => exact h
  | some i =>
    dsimp only
    split
    · rename_i hlt
      by_cases hemp : (a.todos.eraseIdx i).isEmpty = true
      · simp [selection_inv, hemp]
      · rw [if_neg hemp]
        have hne : (a.todos.eraseIdx i).length ≠ 0 := by
          simpa [List.isEmpty_iff, List.length_eq_zero] using hemp
        by_cases hle : (a.todos.eraseIdx i).length ≤ i
        · rw [if_pos hle]
          simp only [selection_inv, decide_eq_true_eq]
          omega
        · rw [if_neg hle]
          simp only [selection_inv, decide_eq_true_eq]
          omega
    · exact h

theorem selection_inv_next (a : App) (h : selection_inv a = true) :
    selection_inv a.next_item = true := by
  unfold App.next_item
  split
  · exact h
  · rename_i hemp
    have hne : a.todos.length ≠ 0 := by
      simpa [List.isEmpty_iff, List.length_eq_zero] using hemp
    cases hsel : a.selected with
    | none =>
      simp only [selection_inv, decide_eq_true_eq]
      omega
    | some i =>
      dsimp only
      simp only [selection_inv, decide_eq_true_eq]
      split <;> omega

theorem selection_inv_previous (a : App) (h : selection_inv a = true) :
    selection_inv a.previous_item = true := by
  unfold App.previous_item
  split
  · exact h
  · rename_i hemp
    have hne : a.todos.length ≠ 0 := by
      simpa [List.isEmpty_iff, List.length_eq_zero] using hemp
    cases hsel : a.selected with
    | none =>
      simp only [selection_inv, decide_eq_true_eq]
      omega
    | some i =>
      simp only [selection_inv, hsel, decide_eq_true_eq] at h
      dsimp only
      simp only [selection_inv, decide_eq_true_eq]
      split <;> omega

theorem selection_inv_applyOp (a : App) (op : Op) (h : selection_inv a = true) :
    selection_inv (a.applyOp op) = true := by
  cases op with
  | add t => exact selection_inv_add_todo a t h
  | toggle => exact selection_inv_toggle a h
  | delete => exact selection_inv_delete a h
  | next => exact selection_inv_next a h
  | prev => exact selection_inv_previous a h
  | key k =>
    rcases handle_key_event_cases a k with ⟨m, fl, inp, heq⟩ | heq | heq | heq | heq | ⟨m, inp, heq⟩
    · rw [App.applyOp, heq]; exact h
    · rw [App.applyOp, heq]; exact selection_inv_toggle a h
    · rw [App.applyOp, heq]; exact selection_inv_delete a h
    · rw [App.applyOp, heq]; exact selection_inv_next a h
    · rw [App.applyOp, heq]; exact selection_inv_previous a h
    · rw [App.applyOp, heq]; exact selection_inv_add_todo a _ h

theorem selection_inv_applyOps (ops : List Op) :
    ∀ (a : App), selection_inv a = true → selection_inv (a.applyOps ops) = true := by
  induction ops with
  | nil => intro a h; exact h
  | cons op ops ih =>
    intro a h
    exact ih (a.applyOp op) (selection_inv_applyOp a op h)

/-! ### The id counter -/

theorem le_maxId : ∀ (ts : List TodoItem), ∀ t ∈ ts, t.id ≤ maxId ts := by
  intro ts
  induction ts with
  | nil => intro t ht; exact absurd ht (List.not_mem_nil t)
  | cons u ts ih =>
    intro t ht
    have hcons : maxId (u :: ts) = max u.id (maxId ts) := rfl
    rcases List.mem_cons.mp ht with h | h
    · subst h; rw [hcons]; exact le_max_left _ _
    · exact le_trans (ih t h) (by rw [hcons]; exact le_max_right _ _)

theorem add_todo_step (a : App) (t : List Char) :
    List.Sublist ((a.add_todo t).todos.map TodoItem.id)
      (a.todos.map TodoItem.id ++ List.range' a.next_id ((a.add_todo t).next_id - a.next_id)) ∧
    a.next_id ≤ (a.add_todo t).next_id := by
  unfold App.add_todo
  split
  · simp
  · dsimp only
    constructor
    · have : a.next_id + 1 - a.next_id = 1 := by omega
      rw [this, List.range'_one, List.map_append]
      exact List.Sublist.refl _
    · omega

theorem toggle_todos_map_id (a : App) :
    a.toggle_current_todo.todos.map TodoItem.id = a.todos.map TodoItem.id := by
  unfold App.toggle_current_todo
  cases hsel : a.selected with
  | none => rfl
  | some i =>
    dsimp only
    cases hget : a.todos[i]? with
    | none => rfl
    | some todo =>
      dsimp only
      rw [List.map_set]
      apply set_self_of_getElem?
      rw [List.getElem?_map, hget]
      rfl

theorem toggle_next_id (a : App) : a.toggle_current_todo.next_id = a.next_id := by
  unfold App.toggle_current_todo
  cases hsel : a.selected with
  | none => rfl
  | some i =>
    dsimp only
    cases hget : a.todos[i]? with
    | none => rfl
    | some todo => rfl

theorem delete_next_id (a : App) : a.delete_current_todo.next_id = a.next_id := by
  unfold App.delete_current_todo
  cases hsel : a.selected with
  | none => rfl
  | some i =>
    dsimp only
    split <;> rfl

theorem delete_todos_sublist (a : App) :
    List.Sublist (a.delete_current_todo.todos.map TodoItem.id) (a.todos.map TodoItem.id) := by
  unfold App.delete_current_todo
  cases hsel : a.selected with
  | none => exact List.Sublist.refl _
  | some i =>
    dsimp only
    split
    · exact (List.eraseIdx_sublist a.todos i).map TodoItem.id
    · exact List.Sublist.refl _

theorem next_item_todos (a : App) : a.next_item.todos = a.todos := by
  unfold App.next_item; split <;> rfl

theorem next_item_next_id (a : App) : a.next_item.next_id = a.next_id := by
  unfold App.next_item; split <;> rfl

theorem previous_item_todos (a : App) : a.previous_item.todos = a.todos := by
  unfold App.previous_item; split <;> rfl

theorem previous_item_next_id (a : App) : a.previous_item.next_id = a.next_id := by
  unfold App.previous_item; split <;> rfl

/-- After any single operation the ids present in the list are a subsequence
of the ids previously present followed by the freshly assigned ids, and
the counter never decreases. -/
theorem applyOp_step (a : App) (op : Op) :
    List.Sublist ((a.applyOp op).todos.map TodoItem.id)
      (a.todos.map TodoItem.id ++ List.range' a.next_id ((a.applyOp op).next_id - a.next_id)) ∧
    a.next_id ≤ (a.applyOp op).next_id := by
  cases op with
  | add t => exact add_todo_step a t
  | toggle =>
    dsimp only [App.applyOp]
    refine ⟨?_, le_of_eq (toggle_next_id a).symm⟩
    rw [toggle_todos_map_id, toggle_next_id]
    simp
  | delete =>
    dsimp only [App.applyOp]
    refine ⟨?_, le_of_eq (delete_next_id a).symm⟩
    rw [delete_next_id]
    simpa using delete_todos_sublist a
  | next =>
    dsimp only [App.applyOp]
    refine ⟨?_, le_of_eq (next_item_next_id a).symm⟩
    rw [next_item_todos, next_item_next_id]
    simp
  | prev =>
    dsimp only [App.applyOp]
    refine ⟨?_, le_of_eq (previous_item_next_id a).symm⟩
    rw [previous_item_todos, previous_item_next_id]
    simp
  | key k =>
    rcases handle_key_event_cases a k with ⟨m, fl, inp, heq⟩ | heq | heq | heq | heq | ⟨m, inp, heq⟩
    · rw [App.applyOp, heq]
      simp
    · rw [App.applyOp, heq]
      refine ⟨?_, le_of_eq (toggle_next_id a).symm⟩
      rw [toggle_todos_map_id, toggle_next_id]
      simp
    · rw [App.applyOp, heq]
      refine ⟨?_, le_of_eq (delete_next_id a).symm⟩
      rw [delete_next_id]
      simpa using delete_todos_sublist a
    · rw [App.applyOp, heq]
      refine ⟨?_, le_of_eq (next_item_next_id a).symm⟩
      rw [next_item_todos, next_item_next_id]
      simp
    · rw [App.applyOp, heq]
      refine ⟨?_, le_of_eq (previous_item_next_id a).symm⟩
      rw [previous_item_todos, previous_item_next_id]
      simp
    · rw [App.applyOp, heq]
      exact add_todo_step a a.input.value

theorem id_inv_applyOp (a : App) (op : Op) (h : id_inv a = true) :
    id_inv (a.applyOp op) = true := by
  obtain ⟨hsub, hmono⟩ := applyOp_step a op
  rw [id_inv, List.all_eq_true] at h ⊢
  intro t ht
  have h1 : t.id ∈ (a.applyOp op).todos.map TodoItem.id := List.mem_map_of_mem _ ht
  have h2 := hsub.mem h1
  rcases List.mem_append.mp h2 with hin | hin
  · rw [List.mem_map] at hin
    obtain ⟨u, hu, hid⟩ := hin
    have hu2 := h u hu
    simp only [decide_eq_true_eq] at hu2 ⊢
    omega
  · rw [List.mem_range'_1] at hin
    simp only [decide_eq_true_eq]
    omega

theorem id_inv_new (loaded : List TodoItem) : id_inv (App.new loaded) = true := by
  rw [id_inv, List.all_eq_true]
  intro t ht
  simp only [decide_eq_true_eq]
  have := le_maxId loaded t ht
  show t.id < maxId loaded + 1
  omega

theorem id_inv_applyOps (ops : List Op) :
    ∀ (a : App), id_inv a = true → id_inv (a.applyOps ops) = true := by
  induction ops with
  | nil => intro a h; exact h
  | cons op ops ih =>
    intro a h
    exact ih (a.applyOp op) (id_inv_applyOp a op h)

theorem assigned_ids_lower (ops : List Op) :
    ∀ (a : App) (x : Nat), x ∈ assigned_ids a ops → a.next_id ≤ x := by
  induction ops with
  | nil => intro a x hx; exact absurd hx (List.not_mem_nil x)
  | cons op ops ih =>
    intro a x hx
    rw [assigned_ids] at hx
    rcases List.mem_append.mp hx with hin | hin
    · exact (List.mem_range'_1.mp hin).1
    · exact le_trans (applyOp_step a op).2 (ih _ x hin)

theorem assigned_ids_pairwise (ops : List Op) :
    ∀ (a : App), (assigned_ids a ops).Pairwise (· < ·) := by
  induction ops with
  | nil => intro a; exact List.Pairwise.nil
  | cons op ops ih =>
    intro a
    rw [assigned_ids, List.pairwise_append]
    refine ⟨List.pairwise_lt_range' _ _, ih _, ?_⟩
    intro x hx y hy
    rw [List.mem_range'_1] at hx
    have h1 := assigned_ids_lower ops _ y hy
    have h2 := (applyOp_step a op).2
    omega

/-! ### Navigation -/

theorem nav_step (a : App) (op : Op) (hop : op = Op.next ∨ op = Op.prev)
    (hne : a.todos ≠ [])
    (hsel : a.selected = none ∨ ∃ i, a.selected = some i ∧ i < a.todos.length) :
    (a.applyOp op).todos = a.todos ∧
    ∃ j, (a.applyOp op).selected = some j ∧ j < a.todos.length := by
  have hlen : a.todos.length ≠ 0 := by
    simpa [List.length_eq_zero] using hne
  have hempf : a.todos.isEmpty ≠ true := by
    simpa [List.isEmpty_iff] using hne
  rcases hop with hop | hop <;> subst hop
  · dsimp only [App.applyOp]
    unfold App.next_item
    rw [if_neg hempf]
    refine ⟨rfl, ?_⟩
    rcases hsel with hnone | ⟨i, hi, hilt⟩
    · rw [hnone]
      exact ⟨0, rfl, by omega⟩
    · rw [hi]
      dsimp only
      split
      · exact ⟨0, rfl, by omega⟩
      · exact ⟨i + 1, rfl, by omega⟩
  · dsimp only [App.applyOp]
    unfold App.previous_item
    rw [if_neg hempf]
    refine ⟨rfl, ?_⟩
    rcases hsel with hnone | ⟨i, hi, hilt⟩
    · rw [hnone]
      exact ⟨0, rfl, by omega⟩
    · rw [hi]
      dsimp only
      split
      · exact ⟨a.todos.length - 1, rfl, by omega⟩
      · exact ⟨i - 1, rfl, by omega⟩

theorem nav_seq (ops : List Op) :
    ∀ (a : App), (∀ o ∈ ops, o = Op.next ∨ o = Op.prev) →
    a.todos ≠ [] →
    (a.selected = none ∨ ∃ i, a.selected = some i ∧ i < a.todos.length) →
    (a.applyOps ops).todos = a.todos ∧
    (ops ≠ [] → ∃ j, (a.applyOps ops).selected = some j ∧ j < a.todos.length) := by
  induction ops with
  | nil =>
    intro a _ _ _
    exact ⟨rfl, fun h => absurd rfl h⟩
  | cons op ops ih =>
    intro a hops hne hsel
    obtain ⟨ht, j, hj, hjlt⟩ := nav_step a op (hops op (List.mem_cons_self op ops)) hne hsel
    have hstep : a.applyOps (op :: ops) = (a.applyOp op).applyOps ops := rfl
    have ih2 := ih (a.applyOp op) (fun o ho => hops o (List.mem_cons_of_mem op ho))
      (by rw [ht]; exact hne) (Or.inr ⟨j, hj, by rw [ht]; exact hjlt⟩)
    rw [hstep]
    refine ⟨by rw [ih2.1, ht], fun _ => ?_⟩
    cases ops with
    | nil => exact ⟨j, hj, hjlt⟩
    | cons o os =>
      obtain ⟨j', hj', hjlt'⟩ := ih2.2 (by simp)
      exact ⟨j', hj', by rw [ht] at hjlt'; exact hjlt'⟩

/-! ### Claim theorems -/

/-- C1: in every state reachable from startup by any sequence of add,
toggle_selected, delete_selected, next, previous and key dispatch, a
non-empty list has `selected = Some(i)` with `0 <= i < len` and an empty
list has `selected = None`. -/
theorem selection_invariant_reachable (loaded : List TodoItem) (ops : List Op) :
    selection_inv ((App.new loaded).applyOps ops) = true :=
  selection_inv_applyOps ops (App.new loaded) (selection_inv_new loaded)

/-- C3: with selection `Some(i)` on a valid index, delete_selected removes
exactly the item at index `i` preserving the order of the rest; the
selection becomes `None` if the list is now empty, `Some(n-2)` if `i` was
the last index `n-1`, and stays `Some(i)` otherwise; with selection
`None` nothing changes. -/
theorem delete_selected_spec (a : App) :
    (a.selected = none → a.delete_current_todo = a) ∧
    (∀ i, a.selected = some i → i < a.todos.length →
      a.delete_current_todo.todos = a.todos.take i ++ a.todos.drop (i + 1) ∧
      (a.delete_current_todo.todos = [] → a.delete_current_todo.selected = none) ∧
      (a.delete_current_todo.todos ≠ [] →
        (i = a.todos.length - 1 → a.delete_current_todo.selected = some (a.todos.length - 2)) ∧
        (i ≠ a.todos.length - 1 → a.delete_current_todo.selected = some i))) := by
  constructor
  · intro h
    unfold App.delete_current_todo
    rw [h]
  · intro i hsel hlt
    unfold App.delete_current_todo
    rw [hsel]
    dsimp only
    rw [if_pos hlt]
    have hlen : (a.todos.eraseIdx i).length = a.todos.length - 1 := by
      rw [List.length_eraseIdx]
      simp [hlt]
    refine ⟨List.eraseIdx_eq_take_drop_succ a.todos i, ?_, ?_⟩
    · intro hnil
      dsimp only at hnil ⊢
      rw [if_pos (by simp [hnil])]
    · intro hne
      dsimp only at hne ⊢
      have hnemp : (a.todos.eraseIdx i).isEmpty ≠ true := by
        simpa [List.isEmpty_iff] using hne
      rw [if_neg hnemp]
      constructor
      · intro hi
        rw [if_pos (by omega)]
        exact congrArg some (by omega)
      · intro hi
        rw [if_neg (by omega)]

/-- C5: next/previous are no-ops on an empty list; on a non-empty list they
move the selection by one with wraparound (a `None` selection goes to 0),
and any non-empty sequence of next/previous calls from an invariant state
keeps the selection in `[0, N)` and the list unchanged. -/
theorem wraparound_navigation (a : App) :
    (a.todos = [] → a.next_item = a ∧ a.previous_item = a) ∧
    (a.todos ≠ [] →
      (a.selected = none → a.next_item.selected = some 0 ∧ a.previous_item.selected = some 0) ∧
      (∀ i, a.selected = some i → i < a.todos.length →
        a.next_item.selected = some (if i = a.todos.length - 1 then 0 else i + 1) ∧
        a.previous_item.selected = some (if i = 0 then a.todos.length - 1 else i - 1)) ∧
      (∀ ops : List Op, ops ≠ [] → (∀ o ∈ ops, o = Op.next ∨ o = Op.prev) →
        (a.selected = none ∨ ∃ i, a.selected = some i ∧ i < a.todos.length) →
        ∃ j, (a.applyOps ops).selected = some j ∧ j < a.todos.length ∧
          (a.applyOps ops).todos = a.todos)) := by
  constructor
  · intro h
    have hemp : a.todos.isEmpty = true := by simp [h]
    constructor
    · unfold App.next_item; rw [if_pos hemp]
    · unfold App.previous_item; rw [if_pos hemp]
  · intro hne
    have hlen : a.todos.length ≠ 0 := by simpa [List.length_eq_zero] using hne
    have hempf : a.todos.isEmpty ≠ true := by simpa [List.isEmpty_iff] using hne
    refine ⟨?_, ?_, ?_⟩
    · intro h
      constructor
      · unfold App.next_item; rw [if_neg hempf, h]
      · unfold App.previous_item; rw [if_neg hempf, h]
    · intro i hsel hilt
      constructor
      · unfold App.next_item
        rw [if_neg hempf, hsel]
        dsimp only
        by_cases hi : i = a.todos.length - 1
        · rw [if_pos hi, if_pos (by omega)]
        · rw [if_neg hi, if_neg (by omega)]
      · unfold App.previous_item
        rw [if_neg hempf, hsel]
    · intro ops hops hnav hsel
      obtain ⟨ht, h2⟩ := nav_seq ops a hnav hne hsel
      obtain ⟨j, hj, hjlt⟩ := h2 hops
      exact ⟨j, hj, hjlt, ht⟩

/-- C8: with selection `Some(i)` on a valid index, toggling twice restores
the state exactly; one toggle flips precisely the selected item's
completed flag, keeping its id and text, every other item, the length,
the selection, the mode and the id counter unchanged. -/
theorem toggle_selected_spec (a : App) (i : Nat) (t : TodoItem)
    (hsel : a.selected = some i) (hget : a.todos[i]? = some t) :
    a.toggle_current_todo.toggle_current_todo = a ∧
    a.toggle_current_todo.todos[i]? = some { t with completed := !t.completed } ∧
    (∀ j, j ≠ i → a.toggle_current_todo.todos[j]? = a.todos[j]?) ∧
    a.toggle_current_todo.todos.length = a.todos.length ∧
    a.toggle_current_todo.selected = a.selected ∧
    a.toggle_current_todo.mode = a.mode ∧
    a.toggle_current_todo.next_id = a.next_id := by
  have hlen : i < a.todos.length := by
    by_contra hc
    rw [List.getElem?_eq_none (by omega)] at hget
    exact Option.noConfusion hget
  have h1 : a.toggle_current_todo = { a with todos := a.todos.set i t.toggle_completion } := by
    unfold App.toggle_current_todo
    rw [hsel]
    dsimp only
    rw [hget]
  refine ⟨?_, ?_, ?_, ?_, ?_, ?_, ?_⟩
  · have h2 : ({ a with todos := a.todos.set i t.toggle_completion } : App).toggle_current_todo
        = { a with todos :=
            (a.todos.set i t.toggle_completion).set i t.toggle_completion.toggle_completion } := by
      unfold App.toggle_current_todo
      dsimp only
      rw [hsel]
      dsimp only
      rw [List.getElem?_set_self hlen]
    have ht : t.toggle_completion.toggle_completion = t := by
      cases t
      simp [TodoItem.toggle_completion]
    rw [h1, h2, List.set_set, ht, set_self_of_getElem? a.todos i t hget]
  · rw [h1]
    dsimp only
    rw [List.getElem?_set_self hlen]
    rfl
  · intro j hj
    rw [h1]
    dsimp only
    exact List.getElem?_set_ne (Ne.symm hj)
  · rw [h1]
    dsimp only
    exact List.length_set a.todos i _
  · rw [h1]
  · rw [h1]
  · rw [h1]

/-- C10: toggle_selected and delete_selected are total on states whose
selection index is out of range: with `Some(i)` and `i >= len` both leave
the whole state unchanged. -/
theorem out_of_range_noop (a : App) (i : Nat) (hsel : a.selected = some i)
    (hge : a.todos.length ≤ i) :
    a.toggle_current_todo = a ∧ a.delete_current_todo = a := by
  constructor
  · unfold App.toggle_current_todo
    rw [hsel]
    dsimp only
    rw [List.getElem?_eq_none hge]
  · unfold App.delete_current_todo
    rw [hsel]
    dsimp only
    rw [if_neg (by omega)]

/-- C9: an added item stores the trimmed input text, which carries no
leading or trailing whitespace. -/
theorem add_stores_trimmed_text (a : App) (t : List Char) (h : rust_trim t ≠ []) :
    (a.add_todo t).todos.getLast? = some (TodoItem.new a.next_id (rust_trim t)) ∧
    (∀ c, (rust_trim t).head? = some c → c.isWhitespace = false) ∧
    (∀ c, (rust_trim t).getLast? = some c → c.isWhitespace = false) := by
  refine ⟨?_, fun c hc => rust_trim_head?_not_ws t c hc,
    fun c hc => rust_trim_getLast?_not_ws t c hc⟩
  unfold App.add_todo
  rw [if_neg (by simpa [List.isEmpty_iff] using h)]
  dsimp only
  simp

/-- C2 counterexample: in the reachable state `after_delete_state`
(ids 1 and 2 loaded, id 2 deleted), adding "x" creates an item with id 3,
while the previous maximum id among the items plus 1 is 2 — the new id is
the `next_id` counter, not the previous maximum plus one. -/
theorem add_id_not_prev_max_counterexample :
    rust_trim ['x'] ≠ [] ∧
    (after_delete_state.add_todo ['x']).todos.getLast?.map TodoItem.id = some 3 ∧
    maxId after_delete_state.todos + 1 = 2 ∧
    ¬ (after_delete_state.add_todo ['x']).todos.getLast?.map TodoItem.id
        = some (maxId after_delete_state.todos + 1) := by
  decide

/-- C2 amended: for every state and text with non-empty trimmed form,
`add` increases `total_count()` by exactly 1, the new item's id equals
the state's `next_id` counter (which the call then increments), and the
selection equals the new last index. -/
theorem add_todo_spec_amended (a : App) (t : List Char) (h : rust_trim t ≠ []) :
    (a.add_todo t).total_count = a.total_count + 1 ∧
    (a.add_todo t).todos.getLast?.map TodoItem.id = some a.next_id ∧
    (a.add_todo t).next_id = a.next_id + 1 ∧
    (a.add_todo t).selected = some ((a.add_todo t).todos.length - 1) := by
  unfold App.add_todo
  rw [if_neg (by simpa [List.isEmpty_iff] using h)]
  dsimp only
  refine ⟨?_, ?_, rfl, rfl⟩
  · simp [App.total_count]
  · simp [TodoItem.new]

/-- C4: `next_id` is `maxId + 1` at load time (1 on an empty list since
`maxId [] = 0`); it strictly exceeds every id in the list in every
reachable state; ids assigned by `add` over any run are strictly
increasing (never reused, even after deletions) and exceed every loaded
id; and no operation ever renumbers a surviving item — after each step
the ids present are a subsequence of the previous ids followed by the
freshly assigned ones. -/
theorem id_counter_invariant (loaded : List TodoItem) (ops : List Op) :
    (App.new loaded).next_id = maxId loaded + 1 ∧
    id_inv ((App.new loaded).applyOps ops) = true ∧
    (assigned_ids (App.new loaded) ops).Pairwise (· < ·) ∧
    (∀ x ∈ assigned_ids (App.new loaded) ops, ∀ t ∈ loaded, t.id < x) ∧
    (∀ (a : App) (op : Op),
      List.Sublist ((a.applyOp op).todos.map TodoItem.id)
        (a.todos.map TodoItem.id ++
          List.range' a.next_id ((a.applyOp op).next_id - a.next_id))) := by
  refine ⟨rfl, id_inv_applyOps ops _ (id_inv_new loaded), assigned_ids_pairwise ops _, ?_,
    fun a op => (applyOp_step a op).1⟩
  intro x hx t ht
  have h1 := assigned_ids_lower ops (App.new loaded) x hx
  have h2 := le_maxId loaded t ht
  have h3 : (App.new loaded).next_id = maxId loaded + 1 := rfl
  omega

/-- C6: loading a non-existent file yields the empty list without error;
loading a file whose content fails to parse propagates exactly that parse
error and never yields a list. -/
theorem load_todos_spec (parse : String → Except ParseError (List TodoItem))
    (c : String) (e : ParseError) :
    load_todos parse none = Except.ok [] ∧
    (parse c = Except.error e →
      load_todos parse (some c) = Except.error e ∧
      ∀ l : List TodoItem, load_todos parse (some c) ≠ Except.ok l) := by
  refine ⟨rfl, fun h => ⟨h, ?_⟩⟩
  intro l hl
  rw [load_todos] at hl
  rw [h] at hl
  exact Except.noConfusion hl

/-- C7: in Insert mode, Enter submits the input buffer through `add`,
resets the buffer and returns to Normal mode; the "buy milk" scenario
from an empty startup ends in Normal mode with one uncompleted item
"buy milk" selected at index 0. -/
theorem insert_enter_submits :
    (∀ a : App, a.mode = AppMode.Insert →
      a.handle_key_event ⟨KeyCode.Enter, KeyEventKind.Press⟩ =
        { a.add_todo a.input.value with input := Input.default, mode := AppMode.Normal }) ∧
    buy_milk_final.mode = AppMode.Normal ∧
    buy_milk_final.total_count = 1 ∧
    buy_milk_final.todos[0]?.map TodoItem.text = some "buy milk".toList ∧
    buy_milk_final.todos[0]?.map TodoItem.completed = some false ∧
    buy_milk_final.selected = some 0 := by
  refine ⟨?_, by decide, by decide, by decide, by decide, by decide⟩
  intro a hm
  unfold App.handle_key_event
  rw [hm]
  rfl

/-! ### Witnesses -/

theorem add_todo_spec_amended_witness :
    rust_trim ['x'] ≠ [] ∧
    ((after_delete_state.add_todo ['x']).total_count = after_delete_state.total_count + 1 ∧
      (after_delete_state.add_todo ['x']).todos.getLast?.map TodoItem.id
        = some after_delete_state.next_id ∧
      (after_delete_state.add_todo ['x']).next_id = after_delete_state.next_id + 1 ∧
      (after_delete_state.add_todo ['x']).selected
        = some ((after_delete_state.add_todo ['x']).todos.length - 1)) :=
  ⟨by decide, add_todo_spec_amended after_delete_state ['x'] (by decide)⟩

theorem delete_selected_spec_witness :
    abc_state.selected = some 2 ∧ 2 < abc_state.todos.length ∧
    abc_state.delete_current_todo.todos = [TodoItem.new 1 ['A'], TodoItem.new 2 ['B']] ∧
    abc_state.delete_current_todo.selected = some 1 := by
  have h := (delete_selected_spec abc_state).2 2 rfl (by decide)
  refine ⟨rfl, by decide, ?_, ?_⟩
  · exact h.1
  · exact (h.2.2 (by decide)).1 (by decide)

theorem id_counter_invariant_witness :
    (2 ∈ assigned_ids (App.new [TodoItem.new 1 ['a']]) [Op.add ['x']]) ∧
    (TodoItem.new 1 ['a'] ∈ [TodoItem.new 1 ['a']]) ∧
    (TodoItem.new 1 ['a']).id < 2 :=
  ⟨by decide, by decide,
    (id_counter_invariant [TodoItem.new 1 ['a']] [Op.add ['x']]).2.2.2.1 2 (by decide)
      (TodoItem.new 1 ['a']) (by decide)⟩

theorem wraparound_navigation_witness :
    ([Op.next, Op.prev, Op.prev] : List Op) ≠ [] ∧
    ∃ j, ((App.new [TodoItem.new 1 ['a'], TodoItem.new 2 ['b']]).applyOps
          [Op.next, Op.prev, Op.prev]).selected = some j ∧
      j < (App.new [TodoItem.new 1 ['a'], TodoItem.new 2 ['b']]).todos.length ∧
      ((App.new [TodoItem.new 1 ['a'], TodoItem.new 2 ['b']]).applyOps
          [Op.next, Op.prev, Op.prev]).todos
        = (App.new [TodoItem.new 1 ['a'], TodoItem.new 2 ['b']]).todos :=
  ⟨by decide,
    ((wraparound_navigation (App.new [TodoItem.new 1 ['a'], TodoItem.new 2 ['b']])).2
        (by decide)).2.2
      [Op.next, Op.prev, Op.prev] (by decide) (by decide) (Or.inr ⟨0, rfl, by decide⟩)⟩

theorem load_todos_spec_witness :
    ((fun s => Except.error (ParseError.mk s)) : String → Except ParseError (List TodoItem))
        "bad" = Except.error (ParseError.mk "bad") ∧
    (load_todos (fun s => Except.error (ParseError.mk s)) (some "bad")
        = Except.error (ParseError.mk "bad") ∧
      ∀ l : List TodoItem,
        load_todos (fun s => Except.error (ParseError.mk s)) (some "bad") ≠ Except.ok l) :=
  ⟨rfl, (load_todos_spec (fun s => Except.error (ParseError.mk s)) "bad" (ParseError.mk "bad")).2 rfl⟩

theorem insert_enter_submits_witness :
    hi_insert_state.mode = AppMode.Insert ∧
    hi_insert_state.handle_key_event ⟨KeyCode.Enter, KeyEventKind.Press⟩ =
      { hi_insert_state.add_todo hi_insert_state.input.value with
          input := Input.default, mode := AppMode.Normal } :=
  ⟨rfl, insert_enter_submits.1 hi_insert_state rfl⟩

theorem toggle_selected_spec_witness :
    (App.new [TodoItem.new 1 ['a']]).selected = some 0 ∧
    (App.new [TodoItem.new 1 ['a']]).todos[0]? = some (TodoItem.new 1 ['a']) ∧
    (App.new [TodoItem.new 1 ['a']]).toggle_current_todo.toggle_current_todo
      = App.new [TodoItem.new 1 ['a']] :=
  ⟨rfl, rfl,
    (toggle_selected_spec (App.new [TodoItem.new 1 ['a']]) 0 (TodoItem.new 1 ['a']) rfl rfl).1⟩

theorem add_stores_trimmed_text_witness :
    rust_trim [' ', 'h', ' '] ≠ [] ∧
    ((App.new []).add_todo [' ', 'h', ' ']).todos.getLast?
      = some (TodoItem.new (App.new []).next_id (rust_trim [' ', 'h', ' '])) :=
  ⟨by decide, (add_stores_trimmed_text (App.new []) [' ', 'h', ' '] (by decide)).1⟩

theorem out_of_range_noop_witness :
    oor_state.selected = some 5 ∧ oor_state.todos.length ≤ 5 ∧
    oor_state.toggle_current_todo = oor_state ∧ oor_state.delete_current_todo = oor_state := by
  refine ⟨rfl, by decide, ?_, ?_⟩
  · exact (out_of_range_noop oor_state 5 rfl (by decide)).1
  · exact (out_of_range_noop oor_state 5 rfl (by decide)).2
